import Mathlib

/-!
Verification development for the message-extraction routine of
`read_slack_messages` and for `remove_task` in `voiceassistant.py`.

Strings are modelled as `List Char`.  The three regular expressions of the
routine are embedded as terms of a small regular-expression language `RE`
whose matcher follows the backtracking semantics of the Python `re`
module for the constructs these patterns use: alternatives are tried left
to right, greedy quantifiers longest first, lazy quantifiers shortest
first, `findall` scans left to right, takes the first (highest priority)
match at each position and resumes at its end.  Every quantifier in the
three source patterns applies to a single character class, which is what
the `RE` language provides.  The character classes are modelled over the
ASCII ranges that the source inputs use.
-/

def toL (s : String) : List Char := s.toList

/-- The double-quote character. -/
def quoteChar : Char := Char.ofNat 34

/-- The apostrophe character. -/
def aposChar : Char := Char.ofNat 39

/-- Character classes occurring in the three message patterns:
`\w`, `\s`, `\d`, `[^"]`, `[^:]`, `.` (any char except newline),
`[A-Z0-9]`, and single literal characters. -/
inductive CharCl where
  | word
  | space
  | digit
  | notQuote
  | notColon
  | dot
  | upAlnum
  | chr (a : Char)
deriving Repr, DecidableEq

def CharCl.test : CharCl → Char → Bool
  | .word, c => c.isAlphanum || c == '_'
  | .space, c => c.isWhitespace
  | .digit, c => c.isDigit
  | .notQuote, c => c != quoteChar
  | .notColon, c => c != ':'
  | .dot, c => c != '\n'
  | .upAlnum, c => ('A' ≤ c && c ≤ 'Z') || c.isDigit
  | .chr a, c => c == a

/-- Regular expressions as used by the three message patterns and the
user-id pattern of `read_slack_messages`.  Quantifiers apply to a single
character class, exactly as in the source patterns.  `grp n r` is a
capturing group numbered `n`, `look r` is a lookahead `(?=r)`, and `eol`
is `$` (end of input, or just before a trailing newline, as in Python
without `MULTILINE`). -/
inductive RE where
  | lit (cs : List Char)
  | cls (c : CharCl)
  | seq (a b : RE)
  | alt (a b : RE)
  | star (c : CharCl)
  | plus (c : CharCl)
  | plusLazy (c : CharCl)
  | opt (c : CharCl)
  | grp (n : Nat) (r : RE)
  | look (r : RE)
  | eol

/-- Strip a literal off the front of the input, returning the remainder. -/
def takesLit : List Char → List Char → Option (List Char)
  | [], s => some s
  | _ :: _, [] => none
  | c :: cs, d :: ds => if c = d then takesLit cs ds else none

/-- Length of the maximal run of characters of class `cc` at the front. -/
def ccRun (cc : CharCl) (s : List Char) : Nat := (s.takeWhile cc.test).length

/-- Candidate consumption lengths for a greedy `*`: longest first. -/
def starKs (n : Nat) : List Nat := (List.range (n + 1)).reverse

/-- Candidate consumption lengths for a greedy `+`: longest first, at least one. -/
def plusKs (n : Nat) : List Nat := ((List.range n).reverse).map (fun k => k + 1)

/-- Candidate consumption lengths for a lazy `+?`: shortest first, at least one. -/
def lazyKs (n : Nat) : List Nat := (List.range n).map (fun k => k + 1)

/-- The two capture slots of a match (our patterns have exactly two groups). -/
abbrev Caps : Type := List Char × List Char

def setCap (n : Nat) (v : List Char) (g : Caps) : Caps :=
  if n = 1 then (v, g.2) else (g.1, v)

/-- Backtracking matcher: all ways to match `r` at the front of `s`,
in Python priority order (the head of the list is the match Python picks).
Each result is the remaining suffix together with the captures. -/
def matchRE : RE → List Char → Caps → List (List Char × Caps)
  | .lit cs, s, g =>
    match takesLit cs s with
    | some rest => [(rest, g)]
    | none => []
  | .cls cc, s, g =>
    match s with
    | [] => []
    | c :: rest => if cc.test c then [(rest, g)] else []
  | .seq a b, s, g => (matchRE a s g).flatMap (fun p => matchRE b p.1 p.2)
  | .alt a b, s, g => matchRE a s g ++ matchRE b s g
  | .star cc, s, g => (starKs (ccRun cc s)).map (fun k => (s.drop k, g))
  | .plus cc, s, g => (plusKs (ccRun cc s)).map (fun k => (s.drop k, g))
  | .plusLazy cc, s, g => (lazyKs (ccRun cc s)).map (fun k => (s.drop k, g))
  | .opt cc, s, g =>
    match s with
    | [] => [(s, g)]
    | c :: rest => if cc.test c then [(rest, g), (s, g)] else [(s, g)]
  | .grp n r, s, g =>
    (matchRE r s g).map (fun p => (p.1, setCap n (s.take (s.length - p.1.length)) p.2))
  | .look r, s, g => if (matchRE r s g).isEmpty then [] else [(s, g)]
  | .eol, s, g => if s = [] ∨ s = ['\n'] then [(s, g)] else []

/-- Scanning loop of `re.findall`: at each position take the first match,
record its two captures and resume after it (advancing by one on an
empty match or a failure).  The `fuel` argument only makes the recursion
structural; every step shortens the input, so any fuel above the input
length gives the same result (`findallFuel_stable` below), and `findall`
supplies such a fuel. -/
def findallFuel : Nat → RE → List Char → List Caps
  | 0, _, _ => []
  | fuel + 1, pat, s =>
    match matchRE pat s ([], []) with
    | [] =>
      match s with
      | [] => []
      | _ :: rest => findallFuel fuel pat rest
    | (s1, g) :: _ =>
      match s.length - s1.length with
      | 0 => g :: (match s with | [] => [] | _ :: rest => findallFuel fuel pat rest)
      | m + 1 => g :: findallFuel fuel pat (s.drop (m + 1))

/-- Model of `re.findall(pattern, text)` for a two-group pattern: the list
of `(group 1, group 2)` capture pairs, in order of occurrence. -/
def findall (pat : RE) (s : List Char) : List Caps := findallFuel (s.length + 1) pat s

theorem findallFuel_stable (f1 : Nat) :
    ∀ (f2 : Nat) (pat : RE) (s : List Char), s.length < f1 → s.length < f2 →
      findallFuel f1 pat s = findallFuel f2 pat s := by
  induction f1 with
  | zero =>
    intro f2 pat s h1 _
    omega
  | succ a ih =>
    intro f2 pat s h1 h2
    cases f2 with
    | zero => omega
    | succ b =>
      simp only [findallFuel]
      rcases hm : matchRE pat s ([], []) with _ | ⟨⟨s1, g⟩, tl⟩
      · simp only [hm]
        cases s with
        | nil => rfl
        | cons c rest =>
          simp only [List.length_cons] at h1 h2
          exact ih b pat rest (by omega) (by omega)
      · simp only [hm]
        cases hn : s.length - s1.length with
        | zero =>
          simp only [hn]
          cases s with
          | nil => rfl
          | cons c rest =>
            simp only [List.length_cons] at h1 h2
            exact congrArg (g :: ·) (ih b pat rest (by omega) (by omega))
        | succ m =>
          simp only [hn]
          have hlen : (s.drop (m + 1)).length < a := by
            rw [List.length_drop]
            omega
          have hlen2 : (s.drop (m + 1)).length < b := by
            rw [List.length_drop]
            omega
          rw [ih b pat (s.drop (m + 1)) hlen hlen2]

/-- Model of the truthiness of `re.match(pattern, s)`: does the pattern
match at position 0. -/
def reMatches (r : RE) (s : List Char) : Bool := !(matchRE r s ([], [])).isEmpty

/-- Eight mandatory `[A-Z0-9]` characters, the counted part of `{8,}`. -/
def upAlnum8 : RE :=
  .seq (.cls .upAlnum) (.seq (.cls .upAlnum) (.seq (.cls .upAlnum)
    (.seq (.cls .upAlnum) (.seq (.cls .upAlnum) (.seq (.cls .upAlnum)
      (.seq (.cls .upAlnum) (.cls .upAlnum)))))))

/-- The opaque-id pattern of the source: `^U[A-Z0-9]{8,}$`. -/
def userIdRE : RE := .seq (.lit (toL "U")) (.seq upAlnum8 (.seq (.star .upAlnum) .eol))

/-- Model of `re.match(r"^U[A-Z0-9]{8,}$", s)` being truthy. -/
def isUserId (s : List Char) : Bool := reMatches userIdRE s

/-- First source pattern: `(?:user|sender):\s*(\w+),?\s*text:\s*"?([^"]+)"?`. -/
def msgPattern1 : RE :=
  .seq (.alt (.lit (toL "user")) (.lit (toL "sender")))
    (.seq (.lit (toL ":"))
      (.seq (.star .space)
        (.seq (.grp 1 (.plus .word))
          (.seq (.opt (.chr ','))
            (.seq (.star .space)
              (.seq (.lit (toL "text:"))
                (.seq (.star .space)
                  (.seq (.opt (.chr quoteChar))
                    (.seq (.grp 2 (.plus .notQuote))
                      (.opt (.chr quoteChar)))))))))))

/-- Second source pattern: `(\w+):\s+"?([^"]+)"?`. -/
def msgPattern2 : RE :=
  .seq (.grp 1 (.plus .word))
    (.seq (.lit (toL ":"))
      (.seq (.plus .space)
        (.seq (.opt (.chr quoteChar))
          (.seq (.grp 2 (.plus .notQuote))
            (.opt (.chr quoteChar))))))

/-- Lookahead of the third source pattern: `(?=\n\d+\.|\n|$)`. -/
def lookAfter3 : RE :=
  .alt (.seq (.lit (toL "\n")) (.seq (.plus .digit) (.lit (toL "."))))
    (.alt (.lit (toL "\n")) .eol)

/-- Third source pattern: `\d+\.\s+([^:]+):\s+(.+?)(?=\n\d+\.|\n|$)`. -/
def msgPattern3 : RE :=
  .seq (.plus .digit)
    (.seq (.lit (toL "."))
      (.seq (.plus .space)
        (.seq (.grp 1 (.plus .notColon))
          (.seq (.lit (toL ":"))
            (.seq (.plus .space)
              (.seq (.grp 2 (.plusLazy .dot))
                (.look lookAfter3)))))))

/-- The `message_patterns` list of the source, in its fixed order. -/
def messagePatterns : List RE := [msgPattern1, msgPattern2, msgPattern3]

/-- Model of Python `str.strip()`: remove leading and trailing whitespace. -/
def strip (l : List Char) : List Char :=
  ((l.dropWhile Char.isWhitespace).reverse.dropWhile Char.isWhitespace).reverse

/-- The generic placeholder speaker of the source. -/
def userStr : List Char := toL "User"

/-- One entry appended in the pattern-family loop of the source:
the raw `username` (replaced by `"User"` when it matches the opaque-id
pattern) followed by `": "` and the stripped `message`. -/
def famEntry (m : Caps) : List Char :=
  let username := if isUserId m.1 then userStr else m.1
  username ++ toL ": " ++ strip m.2

/-- One iteration of `for pattern in message_patterns` in the source:
run `findall`, and when it produced matches append one entry per match.
In the source each match is a 2-tuple (the patterns have two groups), so
the source guard `len(match) == 2` always holds and is reflected by the
pair type of the captures. -/
def famStep (text : List Char) (acc : List (List Char)) (pat : RE) : List (List Char) :=
  let ms := findall pat text
  if ms.isEmpty then acc else acc ++ ms.map famEntry

/-- Model of Python `line.split(":", 1)`: split on the first colon only. -/
def splitColon1 (s : List Char) : List (List Char) :=
  if ':' ∈ s then
    [s.takeWhile (fun c => c != ':'), (s.dropWhile (fun c => c != ':')).tail]
  else [s]

/-- One iteration of the line-oriented fallback loop of the source. -/
def fallStep (acc : List (List Char)) (line : List Char) : List (List Char) :=
  if ':' ∈ line ∧ 10 < line.length then
    match splitColon1 line with
    | [username, message] =>
      let username2 := if isUserId (strip username) then userStr else username
      acc ++ [strip username2 ++ toL ": " ++ strip message]
    | _ => acc
  else acc

/-- The `clean_messages` list of the source after both extraction stages:
the pattern-family loop, and, only when it produced nothing, the
line-oriented fallback over `combined_response.split("\n")`. -/
def cleanMessages (text : List Char) : List (List Char) :=
  let cm := List.foldl (famStep text) [] messagePatterns
  if cm.isEmpty then List.foldl fallStep [] (List.splitOn '\n' text) else cm

/-- One iteration of the deduplication loop of the source. -/
def dedupStep (uniq : List (List Char)) (msg : List Char) : List (List Char) :=
  if msg ∈ uniq then uniq else uniq ++ [msg]

/-- The `unique_messages` list of the source. -/
def uniqueMessages (text : List Char) : List (List Char) :=
  List.foldl dedupStep [] (cleanMessages text)

/-- The `final_messages` list of the source: the first `count` unique
messages.  `count` is modelled as a natural number (the routine is
specified for positive counts, and Python slicing with a nonnegative
bound is `take`). -/
def finalMessages (text : List Char) (count : Nat) : List (List Char) :=
  (uniqueMessages text).take count

/-- The header of the successful return string of the source. -/
def headerMsg (channel : List Char) : List Char :=
  toL "Here are the latest messages from " ++ channel ++ toL ":\n"

/-- The sentinel returned when nothing could be extracted.  Its text is
exactly the source string, the apostrophe written as a character code. -/
def sentinelMsg (channel : List Char) : List Char :=
  toL "I connected to the " ++ channel ++ toL " channel, but couldn" ++ [aposChar]
    ++ toL "t find any messages to read."

/-- The value returned by the extraction part of `read_slack_messages`
for a given `combined_response` text: the sentinel when nothing was
extracted, otherwise the header followed by the newline-joined final
messages. -/
def readSlackMessages (channel : List Char) (text : List Char) (count : Nat) : List Char :=
  if (cleanMessages text).isEmpty then sentinelMsg channel
  else headerMsg channel ++ List.intercalate (toL "\n") (finalMessages text count)

/-- Model of `remove_task`: `index` is the 1-based index argument, the
result is the new task list paired with the returned string.  Mirrors the
source: `idx = index - 1`, bounds check `0 <= idx < len(tasks)`, `pop`
on success, otherwise the list is untouched. -/
def removeTask (tasks : List String) (index : Int) : List String × String :=
  let idx := index - 1
  if 0 ≤ idx ∧ idx < tasks.length then
    (tasks.eraseIdx idx.toNat, "Removed task: " ++ tasks.getD idx.toNat "")
  else
    (tasks, "Invalid task index")

/-! ### Structural lemmas about the extraction pipeline -/

theorem famStep_eq (text : List Char) (acc : List (List Char)) (pat : RE) :
    famStep text acc pat = acc ++ (findall pat text).map famEntry := by
  simp only [famStep]
  cases h : findall pat text <;> simp [h]

theorem famFold_eq (text : List Char) :
    List.foldl (famStep text) [] messagePatterns =
      (findall msgPattern1 text).map famEntry ++ (findall msgPattern2 text).map famEntry
        ++ (findall msgPattern3 text).map famEntry := by
  simp [messagePatterns, famStep_eq, List.append_assoc]

/-- The Boolean keep-test of the fallback loop. -/
def keepLine (l : List Char) : Bool := decide (':' ∈ l ∧ 10 < l.length)

/-- The entry the fallback loop produces for a kept line: the part before
the first colon and the part after it, both stripped, the speaker replaced
by the placeholder when its stripped form matches the opaque-id pattern. -/
def fbEntryOf (line : List Char) : List Char :=
  let username := line.takeWhile (fun c => c != ':')
  let message := (line.dropWhile (fun c => c != ':')).tail
  let username2 := if isUserId (strip username) then userStr else username
  strip username2 ++ toL ": " ++ strip message

theorem fallStep_eq (acc : List (List Char)) (line : List Char) :
    fallStep acc line = acc ++ (if keepLine line then [fbEntryOf line] else []) := by
  by_cases h : (':' ∈ line ∧ 10 < line.length)
  · have h1 : splitColon1 line =
        [line.takeWhile (fun c => c != ':'), (line.dropWhile (fun c => c != ':')).tail] := by
      simp [splitColon1, h.1]
    simp [fallStep, h, keepLine, h1, fbEntryOf]
  · simp [fallStep, h, keepLine]

theorem fallFold_go (lines : List (List Char)) (acc : List (List Char)) :
    List.foldl fallStep acc lines = acc ++ (lines.filter keepLine).map fbEntryOf := by
  induction lines generalizing acc with
  | nil => simp
  | cons line rest ih =>
    rw [List.foldl_cons, fallStep_eq, ih]
    cases hk : keepLine line <;>
      simp [List.filter_cons, hk, List.append_assoc]

theorem fallFold_eq (text : List Char) :
    List.foldl fallStep [] (List.splitOn '\n' text) =
      ((List.splitOn '\n' text).filter keepLine).map fbEntryOf := by
  simpa using fallFold_go (List.splitOn '\n' text) []

theorem cleanMessages_of_fam_ne (text : List Char)
    (h : List.foldl (famStep text) [] messagePatterns ≠ []) :
    cleanMessages text = List.foldl (famStep text) [] messagePatterns := by
  simp only [cleanMessages]
  rw [if_neg]
  simpa [List.isEmpty_iff] using h

theorem cleanMessages_of_fam_eq (text : List Char)
    (h : List.foldl (famStep text) [] messagePatterns = []) :
    cleanMessages text = List.foldl fallStep [] (List.splitOn '\n' text) := by
  simp only [cleanMessages]
  rw [if_pos]
  simpa [List.isEmpty_iff] using h

/-! ### Lemmas about splitting a line at its first colon -/

theorem dropWhile_colon_head (l : List Char) (h : ':' ∈ l) :
    l.dropWhile (fun c => c != ':') = ':' :: (l.dropWhile (fun c => c != ':')).tail := by
  induction l with
  | nil => cases h
  | cons c t ih =>
    by_cases hc : c = ':'
    · subst hc
      simp [List.dropWhile_cons]
    · have ht : ':' ∈ t := by
        cases List.mem_cons.mp h with
        | inl he => exact absurd he.symm hc
        | inr ht => exact ht
      have hcb : (c != ':') = true := by simpa using hc
      rw [List.dropWhile_cons, if_pos hcb]
      exact ih ht

theorem splitColon1_recon (l : List Char) (h : ':' ∈ l) :
    l.takeWhile (fun c => c != ':') ++ ':' :: (l.dropWhile (fun c => c != ':')).tail = l := by
  rw [← dropWhile_colon_head l h, List.takeWhile_append_dropWhile]

/-! ### Lemmas about `strip` -/

theorem dropWhile_idem {α : Type} (p : α → Bool) (l : List α) :
    (l.dropWhile p).dropWhile p = l.dropWhile p := by
  induction l with
  | nil => simp
  | cons a t ih =>
    by_cases h : p a = true
    · simp [List.dropWhile_cons, h, ih]
    · simp [List.dropWhile_cons, h]

theorem head_dropWhile_false {α : Type} (p : α → Bool) (l : List α) :
    ∀ x, (l.dropWhile p).head? = some x → p x = false := by
  induction l with
  | nil => intro x hx; simp at hx
  | cons a t ih =>
    intro x hx
    by_cases h : p a = true
    · rw [List.dropWhile_cons, if_pos h] at hx
      exact ih x hx
    · rw [List.dropWhile_cons, if_neg h] at hx
      have : a = x := by simpa using hx
      subst this
      simpa using h

theorem dropWhile_eq_self_of_head {α : Type} (p : α → Bool) (l : List α)
    (h : ∀ x, l.head? = some x → p x = false) : l.dropWhile p = l := by
  cases l with
  | nil => rfl
  | cons a t =>
    have := h a (by simp)
    simp [List.dropWhile_cons, this]

theorem dropWhile_getLast? {α : Type} (p : α → Bool) (l : List α)
    (h : l.dropWhile p ≠ []) : (l.dropWhile p).getLast? = l.getLast? := by
  induction l with
  | nil => simp at h
  | cons a t ih =>
    by_cases hp : p a = true
    · rw [List.dropWhile_cons, if_pos hp] at h ⊢
      have ht : t ≠ [] := by
        intro he
        rw [he] at h
        simp at h
      rw [ih h]
      cases t with
      | nil => exact absurd rfl ht
      | cons b t2 => simp [List.getLast?_cons_cons]
    · rw [List.dropWhile_cons, if_neg hp]

theorem strip_idem (l : List Char) : strip (strip l) = strip l := by
  unfold strip
  set A := l.dropWhile Char.isWhitespace with hA
  set B := A.reverse.dropWhile Char.isWhitespace with hB
  have h1 : B.reverse.dropWhile Char.isWhitespace = B.reverse := by
    by_cases hBe : B = []
    · rw [hBe]
      rfl
    · apply dropWhile_eq_self_of_head
      intro x hx
      rw [List.head?_reverse] at hx
      rw [hB] at hBe
      rw [hB, dropWhile_getLast? _ _ hBe, List.getLast?_reverse] at hx
      exact head_dropWhile_false Char.isWhitespace l x hx
  rw [h1, List.reverse_reverse, hB, dropWhile_idem]

/-! ### Lemmas about the deduplication loop -/

/-- The first occurrence of each distinct element, in order of first
occurrence: keep the head, then recurse on the tail with all copies of
the head removed. -/
def keepFirst : List (List Char) → List (List Char)
  | [] => []
  | x :: xs => x :: keepFirst (xs.filter (fun y => decide (y ≠ x)))
termination_by l => l.length
decreasing_by
  simp only [List.length_cons]
  exact Nat.lt_succ_of_le (List.length_filter_le _ _)

theorem keepFirst_nil : keepFirst [] = [] := by simp [keepFirst]

theorem keepFirst_cons (x : List Char) (xs : List (List Char)) :
    keepFirst (x :: xs) = x :: keepFirst (xs.filter (fun y => decide (y ≠ x))) := by
  simp [keepFirst]

theorem dedup_go (l acc : List (List Char)) :
    List.foldl dedupStep acc l = acc ++ keepFirst (l.filter (fun y => decide (y ∉ acc))) := by
  induction l generalizing acc with
  | nil => simp [keepFirst_nil]
  | cons x xs ih =>
    rw [List.foldl_cons]
    by_cases hx : x ∈ acc
    · rw [show dedupStep acc x = acc from if_pos hx, ih]
      have hfc : (x :: xs).filter (fun y => decide (y ∉ acc)) =
          xs.filter (fun y => decide (y ∉ acc)) := by
        rw [List.filter_cons]
        simp [hx]
      rw [hfc]
    · rw [show dedupStep acc x = acc ++ [x] from if_neg hx, ih]
      have hfc : (x :: xs).filter (fun y => decide (y ∉ acc)) =
          x :: xs.filter (fun y => decide (y ∉ acc)) := by
        rw [List.filter_cons]
        simp [hx]
      have hff : xs.filter (fun y => decide (y ∉ acc ++ [x])) =
          (xs.filter (fun y => decide (y ∉ acc))).filter (fun y => decide (y ≠ x)) := by
        rw [List.filter_filter]
        apply List.filter_congr
        intro a _
        by_cases h1 : a ∈ acc <;> by_cases h2 : a = x <;> simp [h1, h2]
      rw [hfc, keepFirst_cons, ← hff]
      simp [List.append_assoc]

theorem dedup_eq_keepFirst (l : List (List Char)) :
    List.foldl dedupStep [] l = keepFirst l := by
  rw [dedup_go]
  have hf : l.filter (fun y => decide (y ∉ ([] : List (List Char)))) = l := by
    apply List.filter_eq_self.mpr
    intro a _
    simp
  rw [hf]
  simp

theorem keepFirst_sublist (l : List (List Char)) : (keepFirst l).Sublist l := by
  match l with
  | [] => simp [keepFirst_nil]
  | x :: xs =>
    have ih := keepFirst_sublist (xs.filter (fun y => decide (y ≠ x)))
    rw [keepFirst_cons]
    exact List.Sublist.cons₂ x (ih.trans (List.filter_sublist xs))
termination_by l.length
decreasing_by
  simp only [List.length_cons]
  exact Nat.lt_succ_of_le (List.length_filter_le _ _)

theorem keepFirst_nodup (l : List (List Char)) : (keepFirst l).Nodup := by
  match l with
  | [] => simp [keepFirst_nil]
  | x :: xs =>
    have ih := keepFirst_nodup (xs.filter (fun y => decide (y ≠ x)))
    have hx : x ∉ keepFirst (xs.filter (fun y => decide (y ≠ x))) := by
      intro hmem
      have h1 := (keepFirst_sublist _).subset hmem
      have h2 := (List.mem_filter.mp h1).2
      simp at h2
    rw [keepFirst_cons]
    exact List.nodup_cons.mpr ⟨hx, ih⟩
termination_by l.length
decreasing_by
  simp only [List.length_cons]
  exact Nat.lt_succ_of_le (List.length_filter_le _ _)

theorem indexOf_cons_self2 (a : List Char) (l : List (List Char)) :
    List.indexOf a (a :: l) = 0 := by
  rw [List.indexOf_cons]
  simp

theorem indexOf_cons_ne2 (a b : List Char) (l : List (List Char)) (h : b ≠ a) :
    List.indexOf a (b :: l) = List.indexOf a l + 1 := by
  rw [List.indexOf_cons]
  have hb : (b == a) = false := by simpa using h
  simp [hb]

theorem filter_indexOf_mono (p : List Char → Bool) (l : List (List Char)) (a b : List Char)
    (ha : a ∈ l.filter p) (hb : b ∈ l.filter p)
    (hlt : (l.filter p).indexOf a < (l.filter p).indexOf b) :
    l.indexOf a < l.indexOf b := by
  induction l with
  | nil => simp at ha
  | cons y ys ih =>
    rw [List.filter_cons] at ha hb hlt
    by_cases hy : p y = true
    · rw [if_pos hy] at ha hb hlt
      by_cases hay : a = y
      · subst hay
        have hba : b ≠ a := by
          intro he
          subst he
          simp [indexOf_cons_self2] at hlt
        rw [indexOf_cons_self2, indexOf_cons_ne2 b a ys (fun he => hba he.symm)]
        omega
      · by_cases hby : b = y
        · subst hby
          rw [indexOf_cons_self2] at hlt
          omega
        · rw [indexOf_cons_ne2 a y _ (fun he => hay he.symm),
            indexOf_cons_ne2 b y _ (fun he => hby he.symm)] at hlt
          have ha2 : a ∈ ys.filter p := by
            cases List.mem_cons.mp ha with
            | inl he => exact absurd he hay
            | inr h2 => exact h2
          have hb2 : b ∈ ys.filter p := by
            cases List.mem_cons.mp hb with
            | inl he => exact absurd he hby
            | inr h2 => exact h2
          have := ih ha2 hb2 (by omega)
          rw [indexOf_cons_ne2 a y ys (fun he => hay he.symm),
            indexOf_cons_ne2 b y ys (fun he => hby he.symm)]
          omega
    · rw [if_neg hy] at ha hb hlt
      have hay : a ≠ y := by
        intro he
        subst he
        exact hy (List.mem_filter.mp ha).2
      have hby : b ≠ y := by
        intro he
        subst he
        exact hy (List.mem_filter.mp hb).2
      have := ih ha hb hlt
      rw [indexOf_cons_ne2 a y ys (fun he => hay he.symm),
        indexOf_cons_ne2 b y ys (fun he => hby he.symm)]
      omega

theorem keepFirst_pairwise (l : List (List Char)) :
    List.Pairwise (fun a b => l.indexOf a < l.indexOf b) (keepFirst l) := by
  match l with
  | [] => simp [keepFirst_nil]
  | x :: xs =>
    have ih := keepFirst_pairwise (xs.filter (fun y => decide (y ≠ x)))
    rw [keepFirst_cons, List.pairwise_cons]
    constructor
    · intro b hb
      have hbf := (keepFirst_sublist _).subset hb
      have hbne : b ≠ x := by
        have := (List.mem_filter.mp hbf).2
        simpa using this
      rw [indexOf_cons_self2, indexOf_cons_ne2 b x xs (fun he => hbne he.symm)]
      omega
    · apply List.Pairwise.imp_of_mem ?_ ih
      intro a b hma hmb hab
      have haf := (keepFirst_sublist _).subset hma
      have hbf := (keepFirst_sublist _).subset hmb
      have hane : a ≠ x := by
        have := (List.mem_filter.mp haf).2
        simpa using this
      have hbne : b ≠ x := by
        have := (List.mem_filter.mp hbf).2
        simpa using this
      have hmono := filter_indexOf_mono _ xs a b haf hbf hab
      rw [indexOf_cons_ne2 a x xs (fun he => hane he.symm),
        indexOf_cons_ne2 b x xs (fun he => hbne he.symm)]
      omega
termination_by l.length
decreasing_by
  simp only [List.length_cons]
  exact Nat.lt_succ_of_le (List.length_filter_le _ _)

/-! ### Shape of the produced entries and the two return branches -/

theorem header_ne_sentinel (channel x : List Char) :
    headerMsg channel ++ x ≠ sentinelMsg channel := by
  intro h
  have h0 : (headerMsg channel ++ x).head? = (sentinelMsg channel).head? := by rw [h]
  have hH : (headerMsg channel ++ x).head? = some 'H' := rfl
  have hI : (sentinelMsg channel).head? = some 'I' := rfl
  rw [hH, hI] at h0
  exact absurd (Option.some.inj h0) (by decide)

theorem famEntry_shape (m : Caps) :
    ∃ sp msg, famEntry m = sp ++ toL ": " ++ msg ∧ isUserId sp = false ∧ strip msg = msg := by
  by_cases h : isUserId m.1 = true
  · exact ⟨userStr, strip m.2, by simp [famEntry, h], by decide, strip_idem _⟩
  · exact ⟨m.1, strip m.2, by simp [famEntry, h], by simpa using h, strip_idem _⟩

theorem fbEntryOf_shape (line : List Char) :
    ∃ sp msg, fbEntryOf line = sp ++ toL ": " ++ msg ∧ isUserId sp = false ∧
      strip msg = msg ∧ strip sp = sp := by
  by_cases h : isUserId (strip (line.takeWhile (fun c => c != ':'))) = true
  · refine ⟨strip userStr, strip ((line.dropWhile (fun c => c != ':')).tail),
      by simp [fbEntryOf, h], by decide, strip_idem _, strip_idem _⟩
  · refine ⟨strip (line.takeWhile (fun c => c != ':')),
      strip ((line.dropWhile (fun c => c != ':')).tail),
      by simp [fbEntryOf, h], ?_, strip_idem _, strip_idem _⟩
    simpa using h

theorem cleanMessages_mem_cases (text : List Char) (e : List Char)
    (he : e ∈ cleanMessages text) :
    (∃ m : Caps, e = famEntry m) ∨ (∃ line, e = fbEntryOf line) := by
  by_cases h : List.foldl (famStep text) [] messagePatterns = []
  · right
    rw [cleanMessages_of_fam_eq text h, fallFold_eq] at he
    obtain ⟨line, _, hline⟩ := List.mem_map.mp he
    exact ⟨line, hline.symm⟩
  · left
    rw [cleanMessages_of_fam_ne text h, famFold_eq] at he
    rcases List.mem_append.mp he with h12 | h3
    · rcases List.mem_append.mp h12 with h1 | h2
      · obtain ⟨m, _, hm⟩ := List.mem_map.mp h1
        exact ⟨m, hm.symm⟩
      · obtain ⟨m, _, hm⟩ := List.mem_map.mp h2
        exact ⟨m, hm.symm⟩
    · obtain ⟨m, _, hm⟩ := List.mem_map.mp h3
      exact ⟨m, hm.symm⟩

/-! ### The claims -/

set_option maxRecDepth 100000

/-- Claim C1.  The claim states that only the FIRST pattern family with at
least one match contributes entries and that matches of two families are
never merged.  The source loop has no break: this theorem refutes the
claim at a concrete input on which family 1 matches (so, per the claim,
families 2 and 3 should not be tried) and yet the result also contains the
entry built from the family-2 match. -/
theorem claim1_counterexample :
    findall msgPattern1 (toL "user: Bob, text: hi") = [(toL "Bob", toL "hi")] ∧
    findall msgPattern2 (toL "user: Bob, text: hi") = [(toL "user", toL "Bob, text: hi")] ∧
    cleanMessages (toL "user: Bob, text: hi") =
      [famEntry (toL "Bob", toL "hi"), famEntry (toL "user", toL "Bob, text: hi")] := by
  refine ⟨?_, ?_, ?_⟩ <;> decide

/-- Claim C1, amended.  All three pattern families are tried on every
input; each family that matches contributes all of its entries, in the
fixed family order and, within a family, in order of appearance.  The
family loop is exactly the concatenation of the per-family entry lists. -/
theorem claim1_all_families_contribute (text : List Char) :
    List.foldl (famStep text) [] messagePatterns =
      (findall msgPattern1 text).map famEntry ++ (findall msgPattern2 text).map famEntry
        ++ (findall msgPattern3 text).map famEntry :=
  famFold_eq text

/-- Claim C2.  The extraction routine is a total function (the model
raises nothing by construction); it returns the fixed sentinel string
exactly when the two extraction stages produced nothing, and otherwise
the header followed by the newline-joined final messages. -/
theorem claim2_sentinel_iff_empty (channel text : List Char) (count : Nat) :
    (readSlackMessages channel text count = sentinelMsg channel ↔ cleanMessages text = []) ∧
    (cleanMessages text ≠ [] →
      readSlackMessages channel text count =
        headerMsg channel ++ List.intercalate (toL "\n") (finalMessages text count)) := by
  constructor
  · constructor
    · intro h
      by_contra hne
      rw [readSlackMessages, if_neg (by simpa [List.isEmpty_iff] using hne)] at h
      exact header_ne_sentinel channel _ h
    · intro h
      rw [readSlackMessages, if_pos (by simpa [List.isEmpty_iff] using h)]
  · intro h
    rw [readSlackMessages, if_neg (by simpa [List.isEmpty_iff] using h)]

/-- Claim C2 witness: a concrete input on which extraction succeeds, so
the non-sentinel branch of the theorem applies. -/
theorem claim2_witness :
    cleanMessages (toL "Bob: hi there") ≠ [] ∧
    readSlackMessages (toL "general") (toL "Bob: hi there") 5 =
      headerMsg (toL "general") ++
        List.intercalate (toL "\n") (finalMessages (toL "Bob: hi there") 5) :=
  ⟨by decide,
    (claim2_sentinel_iff_empty (toL "general") (toL "Bob: hi there") 5).2 (by decide)⟩

/-- Claim C3.  The final message list never exceeds the requested count
(stated for every natural count, hence for every positive one). -/
theorem claim3_length_le_count (text : List Char) (count : Nat) :
    (finalMessages text count).length ≤ count := by
  simp only [finalMessages]
  rw [List.length_take]
  exact min_le_left _ _

/-- Claim C4.  The produced list has no duplicate entries, and its
entries occur in the order of the first occurrence of each distinct
string among the extracted candidates. -/
theorem claim4_nodup_first_occurrence (text : List Char) (count : Nat) :
    (finalMessages text count).Nodup ∧
    List.Pairwise (fun a b => (cleanMessages text).indexOf a < (cleanMessages text).indexOf b)
      (finalMessages text count) := by
  have hu : uniqueMessages text = keepFirst (cleanMessages text) := dedup_eq_keepFirst _
  constructor
  · exact List.Nodup.sublist (List.take_sublist _ _) (hu ▸ keepFirst_nodup (cleanMessages text))
  · exact List.Pairwise.sublist (List.take_sublist _ _)
      (hu ▸ keepFirst_pairwise (cleanMessages text))

/-- Claim C5.  Every entry of the extraction is some speaker text that
does not match the opaque-id pattern, followed by a colon-space separator
and a message; and the concrete opaque-id input of the claim yields the
placeholder speaker. -/
theorem claim5_user_id_masked :
    (∀ text e, e ∈ cleanMessages text →
      ∃ sp msg, e = sp ++ toL ": " ++ msg ∧ isUserId sp = false) ∧
    finalMessages (toL "U0123456789: secret note") 5 = [toL "User: secret note"] := by
  constructor
  · intro text e he
    rcases cleanMessages_mem_cases text e he with ⟨m, hm⟩ | ⟨line, hl⟩
    · obtain ⟨sp, msg, h1, h2, _⟩ := famEntry_shape m
      exact ⟨sp, msg, by rw [hm, h1], h2⟩
    · obtain ⟨sp, msg, h1, h2, _, _⟩ := fbEntryOf_shape line
      exact ⟨sp, msg, by rw [hl, h1], h2⟩
  · decide

/-- Claim C5 witness: the universal part applied to a concrete entry of a
concrete extraction. -/
theorem claim5_witness :
    ∃ sp msg, toL "Bob: hi there" = sp ++ toL ": " ++ msg ∧ isUserId sp = false :=
  claim5_user_id_masked.1 (toL "Bob: hi there") (toL "Bob: hi there") (by decide)

/-- Claim C6.  The line-oriented fallback runs exactly when the family
loop produced nothing; it keeps precisely the lines that contain a colon
and have length above 10; and a kept line is split at its FIRST colon
only, the two parts reassembling to the original line, so a payload
containing further colons survives intact. -/
theorem claim6_fallback_structure (text : List Char) :
    (List.foldl (famStep text) [] messagePatterns ≠ [] →
      cleanMessages text = List.foldl (famStep text) [] messagePatterns) ∧
    (List.foldl (famStep text) [] messagePatterns = [] →
      cleanMessages text = ((List.splitOn '\n' text).filter keepLine).map fbEntryOf) ∧
    (∀ l : List Char, keepLine l = true ↔ (':' ∈ l ∧ 10 < l.length)) ∧
    (∀ l : List Char, ':' ∈ l →
      splitColon1 l =
        [l.takeWhile (fun c => c != ':'), (l.dropWhile (fun c => c != ':')).tail] ∧
      l.takeWhile (fun c => c != ':') ++ ':' :: (l.dropWhile (fun c => c != ':')).tail = l) := by
  refine ⟨cleanMessages_of_fam_ne text, ?_, ?_, ?_⟩
  · intro h
    rw [cleanMessages_of_fam_eq text h, fallFold_eq]
  · intro l
    simp [keepLine]
  · intro l hl
    exact ⟨by simp [splitColon1, hl], splitColon1_recon l hl⟩

/-- Claim C6 witness: a concrete input with no family match, whose single
long colon-bearing line is split at the first colon only. -/
theorem claim6_witness :
    cleanMessages (toL "sys:report:ok:now") =
      ((List.splitOn '\n' (toL "sys:report:ok:now")).filter keepLine).map fbEntryOf ∧
    ((toL "sys:report:ok:now").takeWhile (fun c => c != ':') ++ ':' ::
      ((toL "sys:report:ok:now").dropWhile (fun c => c != ':')).tail = toL "sys:report:ok:now") :=
  ⟨(claim6_fallback_structure (toL "sys:report:ok:now")).2.1 (by decide),
    ((claim6_fallback_structure (toL "sys:report:ok:now")).2.2.2
      (toL "sys:report:ok:now") (by decide)).2⟩

/-- Claim C7.  The claim states that both the speaker and the message are
trimmed on every path.  This theorem refutes it: on a numbered-list input
the family loop captures the speaker with its trailing blank and formats
it untrimmed, so the produced entry differs from the trimmed-speaker
formatting the claim prescribes. -/
theorem claim7_counterexample :
    cleanMessages (toL "1. Alice : hi") = [toL "Alice " ++ toL ": " ++ strip (toL "hi")] ∧
    toL "Alice " ++ toL ": " ++ strip (toL "hi") ≠
      strip (toL "Alice ") ++ toL ": " ++ strip (toL "hi") := by
  constructor <;> decide

/-- Claim C7, amended.  The message text is always stripped before
formatting; the speaker text is stripped on the fallback path, while the
pattern families format the captured speaker verbatim (families 1 and 2
capture word characters only, so only the numbered-list family can yield
an untrimmed speaker). -/
theorem claim7_trimming_amended :
    (∀ text e, e ∈ cleanMessages text →
      ∃ sp msg, e = sp ++ toL ": " ++ msg ∧ strip msg = msg) ∧
    (∀ text, List.foldl (famStep text) [] messagePatterns = [] →
      ∀ e, e ∈ cleanMessages text →
        ∃ sp msg, e = sp ++ toL ": " ++ msg ∧ strip msg = msg ∧ strip sp = sp) := by
  constructor
  · intro text e he
    rcases cleanMessages_mem_cases text e he with ⟨m, hm⟩ | ⟨line, hl⟩
    · obtain ⟨sp, msg, h1, _, h3⟩ := famEntry_shape m
      exact ⟨sp, msg, by rw [hm, h1], h3⟩
    · obtain ⟨sp, msg, h1, _, h3, _⟩ := fbEntryOf_shape line
      exact ⟨sp, msg, by rw [hl, h1], h3⟩
  · intro text hfam e he
    rw [cleanMessages_of_fam_eq text hfam, fallFold_eq] at he
    obtain ⟨line, _, hline⟩ := List.mem_map.mp he
    obtain ⟨sp, msg, h1, _, h3, h4⟩ := fbEntryOf_shape line
    exact ⟨sp, msg, by rw [← hline, h1], h3, h4⟩

/-- Claim C7 witness: the amended theorem applied to a family-produced
entry and to a fallback-produced entry of concrete inputs. -/
theorem claim7_witness :
    (∃ sp msg, toL "Bob: hi there" = sp ++ toL ": " ++ msg ∧ strip msg = msg) ∧
    (∃ sp msg, toL "log: entries:today ok" = sp ++ toL ": " ++ msg ∧
      strip msg = msg ∧ strip sp = sp) :=
  ⟨claim7_trimming_amended.1 (toL "Bob: hi there") (toL "Bob: hi there") (by decide),
    claim7_trimming_amended.2 (toL "log:entries:today ok") (by decide)
      (toL "log: entries:today ok") (by decide)⟩

/-- Claim C8.  The claim predicts the two-entry list for the two-line
good-morning input; the code produces something else (shown exactly in
the amended theorem). -/
theorem claim8_counterexample :
    finalMessages (toL "Alice: good morning\nBob: good morning") 5 ≠
      [toL "Alice: good morning", toL "Bob: good morning"] := by
  decide

/-- Claim C8, amended.  On the two-line good-morning input the simple
family's message group, whose character class also matches the newline,
absorbs the second line: the routine returns the SINGLE merged entry.
The newline-join of that single entry coincides with the newline-join of
the two entries the claim expected, so the final returned string is the
one the claim describes. -/
theorem claim8_amended :
    finalMessages (toL "Alice: good morning\nBob: good morning") 5 =
      [toL "Alice: good morning\nBob: good morning"] ∧
    List.intercalate (toL "\n") [toL "Alice: good morning", toL "Bob: good morning"] =
      toL "Alice: good morning\nBob: good morning" := by
  constructor <;> decide

/-- Claim C9.  The claim states idempotence up to truncation.  This
theorem refutes it: on a quoted two-message input the first application
extracts two pairs, but re-applying the routine to the newline-joined
output yields a single merged entry that equals neither original entry,
hence is no truncation of the first result. -/
theorem claim9_counterexample :
    finalMessages (toL "Alice: \"hi\" Bob: \"yo\"") 5 = [toL "Alice: hi", toL "Bob: yo"] ∧
    finalMessages (List.intercalate (toL "\n")
        (finalMessages (toL "Alice: \"hi\" Bob: \"yo\"") 5)) 5 = [toL "Alice: hi\nBob: yo"] ∧
    toL "Alice: hi\nBob: yo" ≠ toL "Alice: hi" ∧
    toL "Alice: hi\nBob: yo" ≠ toL "Bob: yo" := by
  refine ⟨?_, ?_, ?_, ?_⟩ <;> decide

/-- Claim C9, amended.  Idempotence does not hold in general: joining the
output with newlines and re-extracting can merge entries, because the
simple family's message group spans newlines.  It does hold in the cases
where the joined output re-extracts to the same list, for instance the
single-entry output of the two-line good-morning input. -/
theorem claim9_amended :
    finalMessages (List.intercalate (toL "\n")
        (finalMessages (toL "Alice: good morning\nBob: good morning") 5)) 5 =
      finalMessages (toL "Alice: good morning\nBob: good morning") 5 := by
  decide

/-- Claim C10.  The 1-based index is bounds-checked: in bounds, exactly
the addressed task is removed (the rest keep their relative order, the
length drops by one) and the removal message names the removed task; out
of bounds, the list is unchanged and the invalid-index message is
returned. -/
theorem claim10_remove_task (tasks : List String) (index : Int) :
    (1 ≤ index → index ≤ (tasks.length : Int) →
      (removeTask tasks index).1 =
          tasks.take (index - 1).toNat ++ tasks.drop ((index - 1).toNat + 1) ∧
        (removeTask tasks index).1.length = tasks.length - 1 ∧
        (removeTask tasks index).2 = "Removed task: " ++ tasks.getD (index - 1).toNat "") ∧
    ((index < 1 ∨ (tasks.length : Int) < index) →
      removeTask tasks index = (tasks, "Invalid task index")) := by
  constructor
  · intro h1 h2
    have hc : 0 ≤ index - 1 ∧ index - 1 < (tasks.length : Int) := by omega
    simp only [removeTask]
    rw [if_pos hc]
    refine ⟨List.eraseIdx_eq_take_drop_succ _ _, ?_, rfl⟩
    have hlt : (index - 1).toNat < tasks.length := by omega
    rw [List.length_eraseIdx, if_pos hlt]
  · intro h
    have hc : ¬(0 ≤ index - 1 ∧ index - 1 < (tasks.length : Int)) := by omega
    simp only [removeTask]
    rw [if_neg hc]

/-- Claim C10 witness: removal of the second of two tasks, and a
rejected out-of-range index. -/
theorem claim10_witness :
    (removeTask ["feed the baby", "send the report"] 2).2 = "Removed task: send the report" ∧
    removeTask ["feed the baby", "send the report"] 0 =
      (["feed the baby", "send the report"], "Invalid task index") :=
  ⟨((claim10_remove_task ["feed the baby", "send the report"] 2).1
      (by decide) (by decide)).2.2,
    (claim10_remove_task ["feed the baby", "send the report"] 0).2 (by decide)⟩
